import Mathlib

/-!
A shallow embedding of the LL(1) analysis library in `parsers.py`:
symbols, rules, grammars, the recursive FIRST and FOLLOW computations and
the `ll_one` parse-table construction, each translated clause by clause
from the source.  Python's unbounded recursion is modelled with an
explicit fuel parameter: a call that would still be recursing at depth
`fuel` returns `none`, so a call that diverges returns `none` for every
fuel, and a call that terminates returns its value for every large
enough fuel.
-/

namespace Parsers

/-- A grammar symbol.  Python compares symbols by object identity and the
display name has no semantic role, so a symbol is modelled as a fresh
numeric identity plus the NonTerminal-vs-Terminal kind flag
(`nt = true` for nonterminals; `Epsilon` and the end-of-input marker are
terminals, lines 24-37). -/
structure Symbol where
  id : Nat
  nt : Bool
deriving DecidableEq, Repr

/-- A production rule (lines 39-45, minus the isinstance assertions,
which are modelled separately by `Rule.init`). -/
structure Rule where
  lhs : Symbol
  rhs : List Symbol
deriving DecidableEq, Repr

/-- Grammar state: the symbol registry `_syms` (seeded with epsilon and
the end-of-input marker), the ordered rule list, the root, and the next
fresh symbol identity (modelling Python object identity). -/
structure Grammar where
  syms : List Symbol
  rules : List Rule
  root : Option Symbol
  nextId : Nat
deriving DecidableEq, Repr

/-- The epsilon sentinel seeded at index 0 (line 63). -/
def epsSym : Symbol := ⟨0, false⟩

/-- The end-of-input sentinel seeded at index 1 (line 63). -/
def eofSym : Symbol := ⟨1, false⟩

/-- Grammar.__init__ (lines 62-65). -/
def Grammar.empty : Grammar := ⟨[epsSym, eofSym], [], none, 2⟩

/-- Accessor for `self._syms[0]`, the epsilon sentinel (line 79). -/
def Grammar.epsilon (g : Grammar) : Symbol := g.syms.getD 0 epsSym

/-- Accessor for `self._syms[1]`, the end-of-input marker (line 82). -/
def Grammar.eof (g : Grammar) : Symbol := g.syms.getD 1 eofSym

/-- Registration of `n` fresh symbols of a kind, as `_make_syms` does (lines 67-70). -/
def Grammar.mkSyms (g : Grammar) (isNt : Bool) (n : Nat) : Grammar × List Symbol :=
  let fresh := (List.range n).map fun i => (⟨g.nextId + i, isNt⟩ : Symbol)
  ({ g with syms := g.syms ++ fresh, nextId := g.nextId + n }, fresh)

/-- Declaration of fresh nonterminals, as `non_terminal` does (lines 72-73). -/
def Grammar.nonTerminal (g : Grammar) (n : Nat) : Grammar × List Symbol := g.mkSyms true n

/-- Declaration of fresh terminals, as `terminal` does (lines 75-76). -/
def Grammar.terminal (g : Grammar) (n : Nat) : Grammar × List Symbol := g.mkSyms false n

/-- Grammar.r (lines 84-88): normalize an empty rhs to `[ε]`, fix the
root on the first rule ever added, append the rule. -/
def Grammar.r (g : Grammar) (lhs : Symbol) (rhs : List Symbol) : Grammar :=
  let rhs' := if rhs.length < 1 then [g.epsilon] else rhs
  { g with root := some (g.root.getD lhs), rules := g.rules ++ [⟨lhs, rhs'⟩] }

/-- Inner scan of first() (lines 99-109): walk one rule's rhs, stopping
at a self-reference or at a non-nullable symbol; returns the set
accumulated from this rule's scan and the final `annullable` flag.
`recur` is the recursive call to first. -/
def firstScan (eps : Symbol) (recur : Symbol → Option (Finset Symbol)) (sym : Symbol) :
    List Symbol → Option (Finset Symbol × Bool)
  | [] => some (∅, true)
  | s :: rest =>
    if s = sym then some (∅, false)
    else
      (recur s).bind fun sFirst =>
        if eps ∈ sFirst then
          (firstScan eps recur sym rest).bind fun p => some (sFirst.erase eps ∪ p.1, p.2)
        else some (sFirst.erase eps, false)

/-- Outer rule loop of first() (lines 96-111). -/
def firstRules (eps : Symbol) (recur : Symbol → Option (Finset Symbol)) (sym : Symbol) :
    List Rule → Option (Finset Symbol)
  | [] => some ∅
  | r :: rest =>
    if r.lhs = sym then
      (firstScan eps recur sym r.rhs).bind fun p =>
        (firstRules eps recur sym rest).bind fun acc =>
          some ((if p.2 then insert eps p.1 else p.1) ∪ acc)
    else firstRules eps recur sym rest

/-- Grammar.first (lines 90-112), with fuel bounding recursion depth. -/
def Grammar.first (g : Grammar) : Nat → Symbol → Option (Finset Symbol)
  | 0, _ => none
  | fuel + 1, sym =>
    if sym.nt = false then some {sym}
    else firstRules g.epsilon (fun s => Grammar.first g fuel s) sym g.rules

/-- Trailing-suffix scan of follow() (lines 124-130). -/
def followScan (eps : Symbol) (firstF : Symbol → Option (Finset Symbol)) :
    List Symbol → Option (Finset Symbol × Bool)
  | [] => some (∅, true)
  | ff :: rest =>
    (firstF ff).bind fun fs =>
      if eps ∈ fs then
        (followScan eps firstF rest).bind fun p => some (fs.erase eps ∪ p.1, p.2)
      else some (fs.erase eps, false)

/-- Occurrence loop of follow() (lines 120-132): for each occurrence of
`nt` in the rhs, scan its trailing suffix and, when that suffix is all
nullable, union in FOLLOW of the rule's lhs (evaluated exactly there, as
the source does). -/
def followOcc (eps : Symbol) (firstF followF : Symbol → Option (Finset Symbol))
    (nt lhs : Symbol) : List Symbol → Option (Finset Symbol)
  | [] => some ∅
  | s :: rest =>
    if s = nt then
      (followScan eps firstF rest).bind fun p =>
        if p.2 then
          (followF lhs).bind fun fl =>
            (followOcc eps firstF followF nt lhs rest).bind fun acc => some (p.1 ∪ fl ∪ acc)
        else
          (followOcc eps firstF followF nt lhs rest).bind fun acc => some (p.1 ∪ acc)
    else followOcc eps firstF followF nt lhs rest

/-- Rule loop of follow() (lines 117-132). -/
def followRules (eps : Symbol) (firstF followF : Symbol → Option (Finset Symbol))
    (nt : Symbol) : List Rule → Option (Finset Symbol)
  | [] => some ∅
  | r :: rest =>
    if nt ∈ r.rhs then
      (followOcc eps firstF followF nt r.lhs r.rhs).bind fun s =>
        (followRules eps firstF followF nt rest).bind fun acc => some (s ∪ acc)
    else followRules eps firstF followF nt rest

/-- Grammar.follow (lines 114-135) with fuel; the end-of-input marker is
added at the end when the queried nonterminal is the root (lines
133-134). -/
def Grammar.follow (g : Grammar) : Nat → Symbol → Option (Finset Symbol)
  | 0, _ => none
  | fuel + 1, nonTerm =>
    (followRules g.epsilon (fun s => Grammar.first g fuel s)
        (fun a => Grammar.follow g fuel a) nonTerm g.rules).bind fun s =>
      some (if g.root = some nonTerm then s ∪ {g.eof} else s)

/-- An injective numeric key for symbols, used only to fix a
deterministic iteration order where Python iterates a set. -/
def Symbol.key (s : Symbol) : Nat := 2 * s.id + (if s.nt then 1 else 0)

instance : LinearOrder Symbol :=
  LinearOrder.lift' Symbol.key (by
    intro a b h
    cases a with
    | mk ia na =>
      cases b with
      | mk ib nb =>
        cases na <;> cases nb <;> simp [Symbol.key] at h <;> simp <;> omega)

/-- A deterministic enumeration of a finite symbol set, via insertion
sort (kept kernel-reducible so that concrete tables evaluate). -/
def sortedSyms (s : Finset Symbol) : List Symbol :=
  Quotient.liftOn s.val (fun l => List.insertionSort (· ≤ ·) l) fun _ _ h =>
    List.eq_of_perm_of_sorted
      ((List.perm_insertionSort _ _).trans (h.trans (List.perm_insertionSort _ _).symm))
      (List.sorted_insertionSort _ _) (List.sorted_insertionSort _ _)

/-- The conflict data raised at lines 163-165: the offending nonterminal,
the lookahead terminal and the recorded applicable-rule list. -/
structure Conflict where
  nt : Symbol
  tt : Symbol
  rules : List Rule
deriving DecidableEq, Repr

/-- One nonterminal's table row: lookahead terminal to recorded rules. -/
abbrev Row := List (Symbol × List Rule)

/-- The parse table: nonterminal to row, rows in registry order. -/
abbrev Table := List (Symbol × Row)

instance : DecidableEq (Except Conflict Table) := fun a b =>
  match a, b with
  | Except.ok x, Except.ok y =>
    if h : x = y then isTrue (by rw [h]) else isFalse (by simp [h])
  | Except.ok _, Except.error _ => isFalse (by simp)
  | Except.error _, Except.ok _ => isFalse (by simp)
  | Except.error x, Except.error y =>
    if h : x = y then isTrue (by rw [h]) else isFalse (by simp [h])

/-- Attach one finished cell in front of a row unless a conflict was
already raised further right. -/
def consCell (tt : Symbol) (ars : List Rule) : Except Conflict Row → Except Conflict Row
  | Except.error c => Except.error c
  | Except.ok row => Except.ok ((tt, ars) :: row)

/-- Attach one finished row in front of a table unless a conflict was
already raised; an empty row never touches the defaultdict (line 167)
and so is skipped. -/
def consRow (nt : Symbol) (row : Row) : Except Conflict Table → Except Conflict Table
  | Except.error c => Except.error c
  | Except.ok tbl => Except.ok (if row = [] then tbl else (nt, row) :: tbl)

/-- The rhs scan of ll_one (lines 150-159): `found` is true when `tt` was
met in some scanned symbol's FIRST set (the rule gets appended and the
scan breaks with `annullable` still true); the second component is the
final `annullable` flag. -/
def llScan (eps : Symbol) (firstF : Symbol → Option (Finset Symbol)) (tt : Symbol) :
    List Symbol → Option (Bool × Bool)
  | [] => some (false, true)
  | s :: rest =>
    (firstF s).bind fun sf =>
      if tt ∈ sf then some (true, true)
      else if eps ∈ sf then llScan eps firstF tt rest
      else some (false, false)

/-- The per-cell rule loop of ll_one (lines 146-161).  `fOpt` is the
value of `self.follow(nt)`, consulted only where line 160 evaluates it
(Python evaluates it lazily behind `and`, so a diverging FOLLOW matters
only when `annullable` ended up true).  A rule found via FIRST whose
lookahead is also in FOLLOW(nt) is appended twice, exactly as the
source's two append sites do. -/
def applicableRules (eps : Symbol) (firstF : Symbol → Option (Finset Symbol))
    (fOpt : Option (Finset Symbol)) (nt tt : Symbol) :
    List Rule → Option (List Rule)
  | [] => some []
  | r :: rest =>
    if r.lhs = nt then
      (llScan eps firstF tt r.rhs).bind fun p =>
        if p.2 then
          fOpt.bind fun fl =>
            (applicableRules eps firstF fOpt nt tt rest).bind fun acc =>
              some (((if p.1 then [r] else []) ++ (if tt ∈ fl then [r] else [])) ++ acc)
        else
          (applicableRules eps firstF fOpt nt tt rest).bind fun acc =>
            some ((if p.1 then [r] else []) ++ acc)
    else applicableRules eps firstF fOpt nt tt rest

/-- The lookahead loop of ll_one (lines 145-167) over a fixed list of
director terminals, with the conflict check of lines 162-165. -/
def llRow (eps : Symbol) (firstF : Symbol → Option (Finset Symbol))
    (fOpt : Option (Finset Symbol)) (rules : List Rule) (check : Bool) (nt : Symbol) :
    List Symbol → Option (Except Conflict Row)
  | [] => some (Except.ok [])
  | tt :: rest =>
    (applicableRules eps firstF fOpt nt tt rules).bind fun ars =>
      if check = true ∧ 1 < ars.length then some (Except.error ⟨nt, tt, ars⟩)
      else
        (llRow eps firstF fOpt rules check nt rest).bind fun res =>
          some (consCell tt ars res)

/-- One nonterminal's processing (lines 140-167): the director terminals
are FIRST(nt), with ε replaced by FOLLOW(nt) when present (lines
141-143).  Python iterates the director set in unspecified order; the
embedding fixes a deterministic order by sorting (cell contents and
conflict existence do not depend on the order). -/
def llNt (g : Grammar) (fuel : Nat) (check : Bool) (nt : Symbol) :
    Option (Except Conflict Row) :=
  (Grammar.first g fuel nt).bind fun fs =>
    if g.epsilon ∈ fs then
      (Grammar.follow g fuel nt).bind fun fl =>
        llRow g.epsilon (fun s => Grammar.first g fuel s) (Grammar.follow g fuel nt)
          g.rules check nt (sortedSyms ((fs.erase g.epsilon) ∪ fl))
    else
      llRow g.epsilon (fun s => Grammar.first g fuel s) (Grammar.follow g fuel nt)
        g.rules check nt (sortedSyms fs)

/-- One step of the nonterminal loop: a conflict raised while processing
the current nonterminal aborts the build before later nonterminals are
visited; otherwise the remaining table is built and the row attached. -/
def stepNts (next : Option (Except Conflict Table)) (nt : Symbol) :
    Except Conflict Row → Option (Except Conflict Table)
  | Except.error c => some (Except.error c)
  | Except.ok row => next.bind fun res2 => some (consRow nt row res2)

/-- The nonterminal loop of ll_one (lines 138-168); a nonterminal with no
director terminals never touches the defaultdict, so it gets no row. -/
def llNts (g : Grammar) (fuel : Nat) (check : Bool) :
    List Symbol → Option (Except Conflict Table)
  | [] => some (Except.ok [])
  | nt :: rest =>
    (llNt g fuel check nt).bind fun res => stepNts (llNts g fuel check rest) nt res

/-- Grammar.ll_one (lines 137-168): build the table over the registry's
nonterminals; `Except.error` models the RuntimeError of lines 163-165. -/
def Grammar.ll_one (g : Grammar) (fuel : Nat) (check : Bool) :
    Option (Except Conflict Table) :=
  llNts g fuel check (g.syms.filter fun s => s.nt)

/-- True exactly when a table build returned without raising. -/
def isOkTable : Option (Except Conflict Table) → Bool
  | some (Except.ok _) => true
  | _ => false

/-- The rule list with every rule doubled in place: the reference list
for cell order, since one pass of the rule loop can record a rule at
most twice (lines 155 and 161) and in rule-list order. -/
def dupRules : List Rule → List Rule
  | [] => []
  | r :: rest => r :: r :: dupRules rest

/-- A value crossing the library's dynamically-typed boundary: either a
grammar symbol or some other Python object. -/
inductive PyVal
  | sym (s : Symbol)
  | obj (tag : Nat)
deriving DecidableEq, Repr

/-- The error a failed `assert isinstance(...)` contract check raises. -/
inductive PyError
  | assertionFailed
deriving DecidableEq, Repr

/-- The dynamic check `isinstance(v, Symbol)`. -/
def isSymbolVal : PyVal → Bool
  | PyVal.sym _ => true
  | PyVal.obj _ => false

/-- The dynamic check `isinstance(v, NonTerminal)`. -/
def isNonTerminalVal : PyVal → Bool
  | PyVal.sym s => s.nt
  | PyVal.obj _ => false

/-- Rule.__init__ (lines 40-45) with its contract assertions: the lhs
must be a NonTerminal and every rhs element a Symbol, otherwise the
construction fails before any state is produced. -/
def Rule.init : PyVal → List PyVal → Except PyError Rule
  | PyVal.sym l, rhs =>
    if l.nt = false then Except.error PyError.assertionFailed
    else if rhs.all isSymbolVal then
      Except.ok ⟨l, rhs.filterMap fun v =>
        match v with
        | PyVal.sym s => some s
        | PyVal.obj _ => none⟩
    else Except.error PyError.assertionFailed
  | PyVal.obj _, _ => Except.error PyError.assertionFailed

/-- Grammar.r seen from the dynamically-typed boundary (lines 84-88
driving lines 40-45): the empty-rhs normalization happens first, then
the Rule constructor's assertions run.  (Python assigns `_root` before
constructing the Rule, so a failing call still mutates the root; the
embedding only models the raised error, which is all the spec claims.) -/
def Grammar.rChecked (g : Grammar) (lhs : PyVal) (rhs : List PyVal) :
    Except PyError Grammar :=
  let rhs' := if rhs.length < 1 then [PyVal.sym g.epsilon] else rhs
  match Rule.init lhs rhs' with
  | Except.error e => Except.error e
  | Except.ok rule =>
    Except.ok { g with root := some (g.root.getD rule.lhs), rules := g.rules ++ [rule] }

/-- follow()'s entry assertion (line 115) followed by the computation. -/
def Grammar.followChecked (g : Grammar) (fuel : Nat) :
    PyVal → Except PyError (Option (Finset Symbol))
  | PyVal.sym s =>
    if s.nt then Except.ok (Grammar.follow g fuel s)
    else Except.error PyError.assertionFailed
  | PyVal.obj _ => Except.error PyError.assertionFailed

/-- Modelled from the spec's words (§4.3, referenced by §4.5(a)): FIRST
of a symbol sequence under the left-to-right nullable-prefix scan, for
comparison with the table builder's scan. -/
def seqFirst (eps : Symbol) (firstF : Symbol → Option (Finset Symbol)) :
    List Symbol → Option (Finset Symbol)
  | [] => some {eps}
  | s :: rest =>
    (firstF s).bind fun fs =>
      if eps ∈ fs then
        (seqFirst eps firstF rest).bind fun acc => some (fs.erase eps ∪ acc)
      else some fs

/-- Modelled from the spec's words (§4.5): a rule is applicable for cell
(nt, tt) when its lhs is nt and either (a) tt ∈ FIRST(rhs), or (b) the
rhs is fully nullable and tt ∈ FOLLOW(nt). -/
def specApplicable (g : Grammar) (fuel : Nat) (nt tt : Symbol) (r : Rule) : Bool :=
  decide (r.lhs = nt) &&
    match seqFirst g.epsilon (fun s => Grammar.first g fuel s) r.rhs with
    | none => false
    | some fs =>
      decide (tt ∈ fs) ||
        (decide (g.epsilon ∈ fs) &&
          match Grammar.follow g fuel nt with
          | none => false
          | some fl => decide (tt ∈ fl))

/-- Nonterminal S of the demo grammar (line 174, identity 2). -/
def symS : Symbol := ⟨2, true⟩

/-- Nonterminal B of the demo grammar. -/
def symB : Symbol := ⟨3, true⟩

/-- Nonterminal D of the demo grammar. -/
def symD : Symbol := ⟨4, true⟩

/-- Nonterminal E of the demo grammar. -/
def symE : Symbol := ⟨5, true⟩

/-- Nonterminal F of the demo grammar. -/
def symF : Symbol := ⟨6, true⟩

/-- Terminal u of the demo grammar (line 175, identity 7). -/
def symU : Symbol := ⟨7, false⟩

/-- Terminal v of the demo grammar. -/
def symV : Symbol := ⟨8, false⟩

/-- Terminal w of the demo grammar. -/
def symW : Symbol := ⟨9, false⟩

/-- Terminal x of the demo grammar. -/
def symX : Symbol := ⟨10, false⟩

/-- Terminal y of the demo grammar. -/
def symY : Symbol := ⟨11, false⟩

/-- Terminal z of the demo grammar. -/
def symZ : Symbol := ⟨12, false⟩

/-- The canonical sample grammar of __main__ (lines 172-183): S→uBDz,
B→Bv, B→w, D→EF, E→y, E→ε, F→x, F→ε, rules in that order, root S. -/
def gCanon : Grammar :=
  let g := (Grammar.empty.nonTerminal 5).1
  let g := (g.terminal 6).1
  let g := g.r symS [symU, symB, symD, symZ]
  let g := g.r symB [symB, symV]
  let g := g.r symB [symW]
  let g := g.r symD [symE, symF]
  let g := g.r symE [symY]
  let g := g.r symE []
  let g := g.r symF [symX]
  g.r symF []

/-- A two-rule grammar over nonterminals A (identity 2) and B (identity
3) with rules A→B and B→A: the nonterminals are indirectly
(non-immediately) left recursive, and each also sits at the end of the
other's rule, so the FOLLOW sets depend on each other cyclically. -/
def gLoop : Grammar :=
  let g := (Grammar.empty.nonTerminal 2).1
  let g := g.r ⟨2, true⟩ [⟨3, true⟩]
  g.r ⟨3, true⟩ [⟨2, true⟩]

/-- The conflict-pair grammar of spec §8: rules A→a and A→ab, where both
rules start with the same terminal under the same lookahead. -/
def gAB : Grammar :=
  let g := (Grammar.empty.nonTerminal 1).1
  let g := (g.terminal 2).1
  let g := g.r ⟨2, true⟩ [⟨3, false⟩]
  g.r ⟨2, true⟩ [⟨3, false⟩, ⟨4, false⟩]

/-- A grammar whose single rule for A is applicable at lookahead b both
via FIRST and via FOLLOW: S→Ab, A→b.  The source's two append sites then
record the rule A→b twice in cell (A, b). -/
def gDup : Grammar :=
  let g := (Grammar.empty.nonTerminal 2).1
  let g := (g.terminal 1).1
  let g := g.r ⟨2, true⟩ [⟨3, true⟩, ⟨4, false⟩]
  g.r ⟨3, true⟩ [⟨4, false⟩]

/-- A one-rule grammar A→a used to witness monotonicity: adding the rule
A→ε afterwards grows FIRST(A) from {a} to {a, ε}. -/
def gOne : Grammar :=
  let g := (Grammar.empty.nonTerminal 1).1
  let g := (g.terminal 1).1
  g.r ⟨2, true⟩ [⟨3, false⟩]

theorem firstScan_congr {recur recur' : Symbol → Option (Finset Symbol)} (eps sym : Symbol)
    (E : ∀ s t, recur s = some t → recur' s = some t) :
    ∀ l p, firstScan eps recur sym l = some p → firstScan eps recur' sym l = some p := by
  intro l
  induction l with
  | nil => intro p h; exact h
  | cons s rest ih =>
    intro p h
    simp only [firstScan] at h ⊢
    by_cases hs : s = sym
    · rw [if_pos hs] at h ⊢; exact h
    · rw [if_neg hs] at h ⊢
      rw [Option.bind_eq_some] at h
      obtain ⟨t, hr, h⟩ := h
      rw [E s t hr, Option.some_bind]
      by_cases he : eps ∈ t
      · rw [if_pos he] at h ⊢
        rw [Option.bind_eq_some] at h
        obtain ⟨q, hq, h⟩ := h
        rw [ih q hq, Option.some_bind]
        exact h
      · rw [if_neg he] at h ⊢; exact h

theorem firstRules_congr {recur recur' : Symbol → Option (Finset Symbol)} (eps sym : Symbol)
    (E : ∀ s t, recur s = some t → recur' s = some t) :
    ∀ l u, firstRules eps recur sym l = some u → firstRules eps recur' sym l = some u := by
  intro l
  induction l with
  | nil => intro u h; exact h
  | cons r rest ih =>
    intro u h
    simp only [firstRules] at h ⊢
    by_cases hl : r.lhs = sym
    · rw [if_pos hl] at h ⊢
      rw [Option.bind_eq_some] at h
      obtain ⟨p, hp, h⟩ := h
      rw [firstScan_congr eps sym E _ p hp, Option.some_bind]
      rw [Option.bind_eq_some] at h
      obtain ⟨acc, hacc, h⟩ := h
      rw [ih acc hacc, Option.some_bind]
      exact h
    · rw [if_neg hl] at h ⊢; exact ih u h

theorem first_fuel_succ (g : Grammar) :
    ∀ fuel sym S, Grammar.first g fuel sym = some S →
      Grammar.first g (fuel + 1) sym = some S := by
  intro fuel
  induction fuel with
  | zero => intro sym S h; simp [Grammar.first] at h
  | succ n ih =>
    intro sym S h
    simp only [Grammar.first] at h ⊢
    by_cases ht : sym.nt = false
    · rw [if_pos ht] at h ⊢; exact h
    · rw [if_neg ht] at h ⊢
      exact firstRules_congr _ _ (fun s t hst => ih s t hst) _ _ h

theorem first_fuel_mono (g : Grammar) {f1 f2 : Nat} (h12 : f1 ≤ f2) :
    ∀ sym S, Grammar.first g f1 sym = some S → Grammar.first g f2 sym = some S := by
  induction h12 with
  | refl => exact fun sym S h => h
  | step _ ih => exact fun sym S h => first_fuel_succ g _ sym S (ih sym S h)

theorem followScan_congr {fF fF' : Symbol → Option (Finset Symbol)} (eps : Symbol)
    (E : ∀ s t, fF s = some t → fF' s = some t) :
    ∀ l p, followScan eps fF l = some p → followScan eps fF' l = some p := by
  intro l
  induction l with
  | nil => intro p h; exact h
  | cons s rest ih =>
    intro p h
    simp only [followScan] at h ⊢
    rw [Option.bind_eq_some] at h
    obtain ⟨t, hr, h⟩ := h
    rw [E s t hr, Option.some_bind]
    by_cases he : eps ∈ t
    · rw [if_pos he] at h ⊢
      rw [Option.bind_eq_some] at h
      obtain ⟨q, hq, h⟩ := h
      rw [ih q hq, Option.some_bind]
      exact h
    · rw [if_neg he] at h ⊢; exact h

theorem followOcc_congr {fF fF' fR fR' : Symbol → Option (Finset Symbol)}
    (eps nt lhs : Symbol)
    (E1 : ∀ s t, fF s = some t → fF' s = some t)
    (E2 : ∀ s t, fR s = some t → fR' s = some t) :
    ∀ l u, followOcc eps fF fR nt lhs l = some u →
      followOcc eps fF' fR' nt lhs l = some u := by
  intro l
  induction l with
  | nil => intro u h; exact h
  | cons s rest ih =>
    intro u h
    simp only [followOcc] at h ⊢
    by_cases hs : s = nt
    · rw [if_pos hs] at h ⊢
      rw [Option.bind_eq_some] at h
      obtain ⟨p, hp, h⟩ := h
      rw [followScan_congr eps E1 _ p hp, Option.some_bind]
      by_cases ha : p.2 = true
      · rw [if_pos ha] at h ⊢
        rw [Option.bind_eq_some] at h
        obtain ⟨fl, hfl, h⟩ := h
        rw [E2 _ fl hfl, Option.some_bind]
        rw [Option.bind_eq_some] at h
        obtain ⟨acc, hacc, h⟩ := h
        rw [ih acc hacc, Option.some_bind]
        exact h
      · rw [if_neg ha] at h ⊢
        rw [Option.bind_eq_some] at h
        obtain ⟨acc, hacc, h⟩ := h
        rw [ih acc hacc, Option.some_bind]
        exact h
    · rw [if_neg hs] at h ⊢; exact ih u h

theorem followRules_congr {fF fF' fR fR' : Symbol → Option (Finset Symbol)}
    (eps nt : Symbol)
    (E1 : ∀ s t, fF s = some t → fF' s = some t)
    (E2 : ∀ s t, fR s = some t → fR' s = some t) :
    ∀ l u, followRules eps fF fR nt l = some u →
      followRules eps fF' fR' nt l = some u := by
  intro l
  induction l with
  | nil => intro u h; exact h
  | cons r rest ih =>
    intro u h
    simp only [followRules] at h ⊢
    by_cases hm : nt ∈ r.rhs
    · rw [if_pos hm] at h ⊢
      rw [Option.bind_eq_some] at h
      obtain ⟨s, hs, h⟩ := h
      rw [followOcc_congr eps nt r.lhs E1 E2 _ s hs, Option.some_bind]
      rw [Option.bind_eq_some] at h
      obtain ⟨acc, hacc, h⟩ := h
      rw [ih acc hacc, Option.some_bind]
      exact h
    · rw [if_neg hm] at h ⊢; exact ih u h

theorem follow_fuel_succ (g : Grammar) :
    ∀ fuel nt S, Grammar.follow g fuel nt = some S →
      Grammar.follow g (fuel + 1) nt = some S := by
  intro fuel
  induction fuel with
  | zero => intro nt S h; simp [Grammar.follow] at h
  | succ n ih =>
    intro nt S h
    simp only [Grammar.follow] at h ⊢
    rw [Option.bind_eq_some] at h
    obtain ⟨u, hu, h⟩ := h
    refine Option.bind_eq_some.mpr ⟨u, ?_, h⟩
    exact followRules_congr _ _ (fun s t hst => first_fuel_succ g n s t hst)
      (fun a t hat => ih a t hat) _ u hu

theorem follow_fuel_mono (g : Grammar) {f1 f2 : Nat} (h12 : f1 ≤ f2) :
    ∀ nt S, Grammar.follow g f1 nt = some S → Grammar.follow g f2 nt = some S := by
  induction h12 with
  | refl => exact fun nt S h => h
  | step _ ih => exact fun nt S h => follow_fuel_succ g _ nt S (ih nt S h)

theorem firstScan_subset {recur recur' : Symbol → Option (Finset Symbol)} (eps sym : Symbol)
    (P : ∀ s t t', recur s = some t → recur' s = some t' → t ⊆ t') :
    ∀ l p p', firstScan eps recur sym l = some p → firstScan eps recur' sym l = some p' →
      p.1 ⊆ p'.1 ∧ (p.2 = true → p'.2 = true) := by
  intro l
  induction l with
  | nil =>
    intro p p' h h'
    simp only [firstScan] at h h'
    obtain rfl := Option.some.inj h
    obtain rfl := Option.some.inj h'
    exact ⟨Finset.Subset.refl _, fun hq => hq⟩
  | cons s rest ih =>
    intro p p' h h'
    simp only [firstScan] at h h'
    by_cases hs : s = sym
    · rw [if_pos hs] at h h'
      obtain rfl := Option.some.inj h
      obtain rfl := Option.some.inj h'
      exact ⟨Finset.Subset.refl _, fun hq => hq⟩
    · rw [if_neg hs] at h h'
      rw [Option.bind_eq_some] at h h'
      obtain ⟨t, hr, h⟩ := h
      obtain ⟨t', hr', h'⟩ := h'
      have hsub := P s t t' hr hr'
      by_cases he : eps ∈ t
      · have he' : eps ∈ t' := hsub he
        rw [if_pos he] at h
        rw [if_pos he'] at h'
        rw [Option.bind_eq_some] at h h'
        obtain ⟨q, hq, h⟩ := h
        obtain ⟨q', hq', h'⟩ := h'
        obtain rfl := Option.some.inj h
        obtain rfl := Option.some.inj h'
        have ihq := ih q q' hq hq'
        exact ⟨Finset.union_subset_union (Finset.erase_subset_erase _ hsub) ihq.1, ihq.2⟩
      · rw [if_neg he] at h
        obtain rfl := Option.some.inj h
        by_cases he' : eps ∈ t'
        · rw [if_pos he'] at h'
          rw [Option.bind_eq_some] at h'
          obtain ⟨q', hq', h'⟩ := h'
          obtain rfl := Option.some.inj h'
          refine ⟨?_, fun hq => by simp at hq⟩
          exact (Finset.erase_subset_erase _ hsub).trans Finset.subset_union_left
        · rw [if_neg he'] at h'
          obtain rfl := Option.some.inj h'
          exact ⟨Finset.erase_subset_erase _ hsub, fun hq => hq⟩

theorem firstRules_subset {recur recur' : Symbol → Option (Finset Symbol)} (eps sym : Symbol)
    (P : ∀ s t t', recur s = some t → recur' s = some t' → t ⊆ t') (tail : List Rule) :
    ∀ l u u', firstRules eps recur sym l = some u →
      firstRules eps recur' sym (l ++ tail) = some u' → u ⊆ u' := by
  intro l
  induction l with
  | nil =>
    intro u u' h h'
    simp only [firstRules] at h
    obtain rfl := Option.some.inj h
    exact Finset.empty_subset _
  | cons r rest ih =>
    intro u u' h h'
    simp only [firstRules, List.cons_append] at h h'
    by_cases hl : r.lhs = sym
    · rw [if_pos hl] at h h'
      rw [Option.bind_eq_some] at h h'
      obtain ⟨p, hp, h⟩ := h
      obtain ⟨p', hp', h'⟩ := h'
      rw [Option.bind_eq_some] at h h'
      obtain ⟨acc, hacc, h⟩ := h
      obtain ⟨acc', hacc', h'⟩ := h'
      obtain rfl := Option.some.inj h
      obtain rfl := Option.some.inj h'
      have hscan := firstScan_subset eps sym P r.rhs p p' hp hp'
      have hrec := ih acc acc' hacc hacc'
      refine Finset.union_subset_union ?_ hrec
      by_cases ha : p.2 = true
      · rw [if_pos ha, if_pos (hscan.2 ha)]
        exact Finset.insert_subset_insert _ hscan.1
      · rw [if_neg ha]
        by_cases ha' : p'.2 = true
        · rw [if_pos ha']
          exact hscan.1.trans (Finset.subset_insert _ _)
        · rw [if_neg ha']; exact hscan.1
    · rw [if_neg hl] at h h'; exact ih u u' h h'

theorem first_r_subset (g : Grammar) (lhs : Symbol) (rhs : List Symbol) :
    ∀ fuel sym S S', Grammar.first g fuel sym = some S →
      Grammar.first (g.r lhs rhs) fuel sym = some S' → S ⊆ S' := by
  intro fuel
  induction fuel with
  | zero => intro sym S S' h _; simp [Grammar.first] at h
  | succ n ih =>
    intro sym S S' h h'
    simp only [Grammar.first] at h h'
    by_cases ht : sym.nt = false
    · rw [if_pos ht] at h h'
      obtain rfl := Option.some.inj h
      obtain rfl := Option.some.inj h'
      exact Finset.Subset.refl _
    · rw [if_neg ht] at h h'
      exact firstRules_subset g.epsilon sym (fun s t t' hst hst' => ih s t t' hst hst')
        [⟨lhs, if rhs.length < 1 then [g.epsilon] else rhs⟩] g.rules S S' h h'

theorem followScan_subset {fF fF' : Symbol → Option (Finset Symbol)} (eps : Symbol)
    (P : ∀ s t t', fF s = some t → fF' s = some t' → t ⊆ t') :
    ∀ l p p', followScan eps fF l = some p → followScan eps fF' l = some p' →
      p.1 ⊆ p'.1 ∧ (p.2 = true → p'.2 = true) := by
  intro l
  induction l with
  | nil =>
    intro p p' h h'
    simp only [followScan] at h h'
    obtain rfl := Option.some.inj h
    obtain rfl := Option.some.inj h'
    exact ⟨Finset.Subset.refl _, fun hq => hq⟩
  | cons s rest ih =>
    intro p p' h h'
    simp only [followScan] at h h'
    rw [Option.bind_eq_some] at h h'
    obtain ⟨t, hr, h⟩ := h
    obtain ⟨t', hr', h'⟩ := h'
    have hsub := P s t t' hr hr'
    by_cases he : eps ∈ t
    · have he' : eps ∈ t' := hsub he
      rw [if_pos he] at h
      rw [if_pos he'] at h'
      rw [Option.bind_eq_some] at h h'
      obtain ⟨q, hq, h⟩ := h
      obtain ⟨q', hq', h'⟩ := h'
      obtain rfl := Option.some.inj h
      obtain rfl := Option.some.inj h'
      have ihq := ih q q' hq hq'
      exact ⟨Finset.union_subset_union (Finset.erase_subset_erase _ hsub) ihq.1, ihq.2⟩
    · rw [if_neg he] at h
      obtain rfl := Option.some.inj h
      by_cases he' : eps ∈ t'
      · rw [if_pos he'] at h'
        rw [Option.bind_eq_some] at h'
        obtain ⟨q', hq', h'⟩ := h'
        obtain rfl := Option.some.inj h'
        refine ⟨?_, fun hq => by simp at hq⟩
        exact (Finset.erase_subset_erase _ hsub).trans Finset.subset_union_left
      · rw [if_neg he'] at h'
        obtain rfl := Option.some.inj h'
        exact ⟨Finset.erase_subset_erase _ hsub, fun hq => hq⟩

theorem followOcc_subset {fF fF' fR fR' : Symbol → Option (Finset Symbol)}
    (eps nt lhs : Symbol)
    (P : ∀ s t t', fF s = some t → fF' s = some t' → t ⊆ t')
    (Q : ∀ s t t', fR s = some t → fR' s = some t' → t ⊆ t') :
    ∀ l u u', followOcc eps fF fR nt lhs l = some u →
      followOcc eps fF' fR' nt lhs l = some u' → u ⊆ u' := by
  intro l
  induction l with
  | nil =>
    intro u u' h h'
    simp only [followOcc] at h
    obtain rfl := Option.some.inj h
    exact Finset.empty_subset _
  | cons s rest ih =>
    intro u u' h h'
    simp only [followOcc] at h h'
    by_cases hs : s = nt
    · rw [if_pos hs] at h h'
      rw [Option.bind_eq_some] at h h'
      obtain ⟨p, hp, h⟩ := h
      obtain ⟨p', hp', h'⟩ := h'
      have hscan := followScan_subset eps P rest p p' hp hp'
      by_cases ha : p.2 = true
      · have ha' := hscan.2 ha
        rw [if_pos ha] at h
        rw [if_pos ha'] at h'
        rw [Option.bind_eq_some] at h h'
        obtain ⟨fl, hfl, h⟩ := h
        obtain ⟨fl', hfl', h'⟩ := h'
        rw [Option.bind_eq_some] at h h'
        obtain ⟨acc, hacc, h⟩ := h
        obtain ⟨acc', hacc', h'⟩ := h'
        obtain rfl := Option.some.inj h
        obtain rfl := Option.some.inj h'
        exact Finset.union_subset_union
          (Finset.union_subset_union hscan.1 (Q lhs fl fl' hfl hfl'))
          (ih acc acc' hacc hacc')
      · rw [if_neg ha] at h
        rw [Option.bind_eq_some] at h
        obtain ⟨acc, hacc, h⟩ := h
        obtain rfl := Option.some.inj h
        by_cases ha' : p'.2 = true
        · rw [if_pos ha'] at h'
          rw [Option.bind_eq_some] at h'
          obtain ⟨fl', hfl', h'⟩ := h'
          rw [Option.bind_eq_some] at h'
          obtain ⟨acc', hacc', h'⟩ := h'
          obtain rfl := Option.some.inj h'
          exact Finset.union_subset_union (hscan.1.trans Finset.subset_union_left)
            (ih acc acc' hacc hacc')
        · rw [if_neg ha'] at h'
          rw [Option.bind_eq_some] at h'
          obtain ⟨acc', hacc', h'⟩ := h'
          obtain rfl := Option.some.inj h'
          exact Finset.union_subset_union hscan.1 (ih acc acc' hacc hacc')
    · rw [if_neg hs] at h h'
      exact ih u u' h h'

theorem followRules_subset {fF fF' fR fR' : Symbol → Option (Finset Symbol)}
    (eps nt : Symbol)
    (P : ∀ s t t', fF s = some t → fF' s = some t' → t ⊆ t')
    (Q : ∀ s t t', fR s = some t → fR' s = some t' → t ⊆ t') (tail : List Rule) :
    ∀ l u u', followRules eps fF fR nt l = some u →
      followRules eps fF' fR' nt (l ++ tail) = some u' → u ⊆ u' := by
  intro l
  induction l with
  | nil =>
    intro u u' h h'
    simp only [followRules] at h
    obtain rfl := Option.some.inj h
    exact Finset.empty_subset _
  | cons r rest ih =>
    intro u u' h h'
    simp only [followRules, List.cons_append] at h h'
    by_cases hm : nt ∈ r.rhs
    · rw [if_pos hm] at h h'
      rw [Option.bind_eq_some] at h h'
      obtain ⟨s, hs, h⟩ := h
      obtain ⟨s', hs', h'⟩ := h'
      rw [Option.bind_eq_some] at h h'
      obtain ⟨acc, hacc, h⟩ := h
      obtain ⟨acc', hacc', h'⟩ := h'
      obtain rfl := Option.some.inj h
      obtain rfl := Option.some.inj h'
      exact Finset.union_subset_union (followOcc_subset eps nt r.lhs P Q r.rhs s s' hs hs')
        (ih acc acc' hacc hacc')
    · rw [if_neg hm] at h h'
      exact ih u u' h h'

theorem follow_r_subset (g : Grammar) (lhs : Symbol) (rhs : List Symbol) :
    ∀ fuel nt T T', Grammar.follow g fuel nt = some T →
      Grammar.follow (g.r lhs rhs) fuel nt = some T' → T ⊆ T' := by
  intro fuel
  induction fuel with
  | zero => intro nt T T' h _; simp [Grammar.follow] at h
  | succ n ih =>
    intro nt T T' h h'
    simp only [Grammar.follow] at h h'
    rw [Option.bind_eq_some] at h h'
    obtain ⟨u, hu, h⟩ := h
    obtain ⟨u', hu', h'⟩ := h'
    obtain rfl := Option.some.inj h
    obtain rfl := Option.some.inj h'
    have husub : u ⊆ u' :=
      followRules_subset g.epsilon nt
        (fun s t t' hst hst' => first_r_subset g lhs rhs n s t t' hst hst')
        (fun a t t' hat hat' => ih a t t' hat hat')
        [⟨lhs, if rhs.length < 1 then [g.epsilon] else rhs⟩] g.rules u u' hu hu'
    have heof : (g.r lhs rhs).eof = g.eof := rfl
    rw [heof]
    cases hr : g.root with
    | some rt =>
      have hroot : (g.r lhs rhs).root = some rt := by
        show some (g.root.getD lhs) = some rt
        rw [hr]
        rfl
      rw [hroot]
      by_cases hn : rt = nt
      · rw [if_pos (by rw [hn]), if_pos (by rw [hn])]
        exact Finset.union_subset_union husub (Finset.Subset.refl _)
      · rw [if_neg (by simp [hn]), if_neg (by simp [hn])]
        exact husub
    | none =>
      have hroot : (g.r lhs rhs).root = some lhs := by
        show some (g.root.getD lhs) = some lhs
        rw [hr]
        rfl
      rw [if_neg (by simp), hroot]
      by_cases hn : lhs = nt
      · rw [if_pos (by rw [hn])]
        exact husub.trans Finset.subset_union_left
      · rw [if_neg (by simp [hn])]
        exact husub

/-- C7: adding a rule never shrinks FIRST or FOLLOW: whenever the
analyses return both before and after `Grammar.r`, the old sets are
contained in the new ones (for any recursion depths at which they
return). -/
theorem first_follow_mono_r (g : Grammar) (lhs N : Symbol) (rhs : List Symbol)
    (f1 f2 f3 f4 : Nat) (S1 S2 T1 T2 : Finset Symbol) (hN : N.nt = true)
    (hS1 : Grammar.first g f1 N = some S1)
    (hS2 : Grammar.first (g.r lhs rhs) f2 N = some S2)
    (hT1 : Grammar.follow g f3 N = some T1)
    (hT2 : Grammar.follow (g.r lhs rhs) f4 N = some T2) :
    S1 ⊆ S2 ∧ T1 ⊆ T2 := by
  constructor
  · exact first_r_subset g lhs rhs (max f1 f2) N S1 S2
      (first_fuel_mono g (Nat.le_max_left f1 f2) N S1 hS1)
      (first_fuel_mono (g.r lhs rhs) (Nat.le_max_right f1 f2) N S2 hS2)
  · exact follow_r_subset g lhs rhs (max f3 f4) N T1 T2
      (follow_fuel_mono g (Nat.le_max_left f3 f4) N T1 hT1)
      (follow_fuel_mono (g.r lhs rhs) (Nat.le_max_right f3 f4) N T2 hT2)

/-- C7 witness: on the one-rule grammar A→a, adding the rule A→ε grows
FIRST(A) from {a} to {a, ε} and keeps FOLLOW(A) = {$}. -/
theorem first_follow_mono_r_w :
    ((⟨2, true⟩ : Symbol).nt = true ∧
     Grammar.first gOne 5 ⟨2, true⟩ = some {⟨3, false⟩} ∧
     Grammar.first (gOne.r ⟨2, true⟩ []) 5 ⟨2, true⟩ = some {⟨3, false⟩, epsSym} ∧
     Grammar.follow gOne 5 ⟨2, true⟩ = some {eofSym} ∧
     Grammar.follow (gOne.r ⟨2, true⟩ []) 5 ⟨2, true⟩ = some {eofSym}) ∧
    (({⟨3, false⟩} : Finset Symbol) ⊆ {⟨3, false⟩, epsSym} ∧
     ({eofSym} : Finset Symbol) ⊆ {eofSym}) :=
  ⟨⟨rfl, rfl, rfl, rfl, rfl⟩,
    first_follow_mono_r gOne ⟨2, true⟩ ⟨2, true⟩ [] 5 5 5 5 _ _ _ _ rfl rfl rfl rfl rfl⟩

theorem llRow_false_ok {eps : Symbol} {fF : Symbol → Option (Finset Symbol)}
    {fOpt : Option (Finset Symbol)} {rules : List Rule} {nt : Symbol} :
    ∀ terms res, llRow eps fF fOpt rules false nt terms = some res →
      ∃ row, res = Except.ok row := by
  intro terms
  induction terms with
  | nil => intro res h; exact ⟨[], (Option.some.inj h).symm⟩
  | cons tt rest ih =>
    intro res h
    simp only [llRow] at h
    rw [Option.bind_eq_some] at h
    obtain ⟨ars, hars, h⟩ := h
    rw [if_neg (by simp)] at h
    rw [Option.bind_eq_some] at h
    obtain ⟨res0, hres0, h⟩ := h
    obtain ⟨row0, rfl⟩ := ih res0 hres0
    exact ⟨(tt, ars) :: row0, (Option.some.inj h).symm⟩

theorem llNt_false_ok {g : Grammar} {fuel : Nat} {nt : Symbol} :
    ∀ res, llNt g fuel false nt = some res → ∃ row, res = Except.ok row := by
  intro res h
  simp only [llNt] at h
  rw [Option.bind_eq_some] at h
  obtain ⟨fs, hfs, h⟩ := h
  by_cases he : g.epsilon ∈ fs
  · rw [if_pos he] at h
    rw [Option.bind_eq_some] at h
    obtain ⟨fl, hfl, h⟩ := h
    exact llRow_false_ok _ res h
  · rw [if_neg he] at h
    exact llRow_false_ok _ res h

theorem llNts_false_ok {g : Grammar} {fuel : Nat} :
    ∀ nts res, llNts g fuel false nts = some res → ∃ tbl, res = Except.ok tbl := by
  intro nts
  induction nts with
  | nil => intro res h; exact ⟨[], (Option.some.inj h).symm⟩
  | cons nt rest ih =>
    intro res h
    simp only [llNts] at h
    rw [Option.bind_eq_some] at h
    obtain ⟨res1, hres1, h⟩ := h
    obtain ⟨row, rfl⟩ := llNt_false_ok res1 hres1
    simp only [stepNts] at h
    rw [Option.bind_eq_some] at h
    obtain ⟨res2, hres2, h⟩ := h
    obtain ⟨tbl0, rfl⟩ := ih res2 hres2
    simp only [consRow] at h
    exact ⟨_, (Option.some.inj h).symm⟩

theorem llRow_true_of_false {eps : Symbol} {fF : Symbol → Option (Finset Symbol)}
    {fOpt : Option (Finset Symbol)} {rules : List Rule} {nt : Symbol} :
    ∀ terms row, llRow eps fF fOpt rules false nt terms = some (Except.ok row) →
      ((∀ q ∈ row, (q : Symbol × List Rule).2.length ≤ 1) →
        llRow eps fF fOpt rules true nt terms = some (Except.ok row)) ∧
      ((∃ q ∈ row, 1 < (q : Symbol × List Rule).2.length) →
        ∃ c, llRow eps fF fOpt rules true nt terms = some (Except.error c) ∧
          c.nt = nt ∧ (c.tt, c.rules) ∈ row ∧ 1 < c.rules.length) := by
  intro terms
  induction terms with
  | nil =>
    intro row h
    obtain rfl := Except.ok.inj (Option.some.inj h)
    refine ⟨fun _ => rfl, ?_⟩
    rintro ⟨q, hq, -⟩
    exact absurd hq (List.not_mem_nil q)
  | cons tt rest ih =>
    intro row h
    simp only [llRow] at h ⊢
    rw [Option.bind_eq_some] at h
    obtain ⟨ars, hars, h⟩ := h
    rw [if_neg (by simp)] at h
    rw [Option.bind_eq_some] at h
    obtain ⟨res0, hres0, h⟩ := h
    cases res0 with
    | error c =>
      simp only [consCell] at h
      exact absurd (Option.some.inj h) (by simp)
    | ok row0 =>
      simp only [consCell] at h
      obtain rfl := Except.ok.inj (Option.some.inj h)
      have IH := ih row0 hres0
      rw [hars, Option.some_bind]
      constructor
      · intro hall
        have hlen : ¬ (True ∧ 1 < ars.length) := by
          rintro ⟨-, hl⟩
          have := hall (tt, ars) (List.mem_cons_self _ _)
          simp at this
          omega
        rw [if_neg hlen]
        rw [IH.1 (fun q hq => hall q (List.mem_cons_of_mem _ hq)), Option.some_bind]
        rfl
      · rintro ⟨q, hq, hql⟩
        by_cases hlen : 1 < ars.length
        · refine ⟨⟨nt, tt, ars⟩, ?_, rfl, List.mem_cons_self _ _, hlen⟩
          rw [if_pos ⟨trivial, hlen⟩]
        · have hq0 : q ∈ row0 := by
            rcases List.mem_cons.mp hq with hq1 | hq2
            · exfalso
              rw [hq1] at hql
              simp at hql
              omega
            · exact hq2
          obtain ⟨c, hc, hcnt, hcm, hcl⟩ := IH.2 ⟨q, hq0, hql⟩
          refine ⟨c, ?_, hcnt, List.mem_cons_of_mem _ hcm, hcl⟩
          rw [if_neg (fun hcon => hlen hcon.2), hc, Option.some_bind]
          rfl

theorem llNt_true_of_false {g : Grammar} {fuel : Nat} {nt : Symbol} {row : Row}
    (h : llNt g fuel false nt = some (Except.ok row)) :
    ((∀ q ∈ row, (q : Symbol × List Rule).2.length ≤ 1) →
      llNt g fuel true nt = some (Except.ok row)) ∧
    ((∃ q ∈ row, 1 < (q : Symbol × List Rule).2.length) →
      ∃ c, llNt g fuel true nt = some (Except.error c) ∧
        c.nt = nt ∧ (c.tt, c.rules) ∈ row ∧ 1 < c.rules.length) := by
  simp only [llNt] at h ⊢
  rw [Option.bind_eq_some] at h
  obtain ⟨fs, hfs, h⟩ := h
  rw [hfs, Option.some_bind]
  by_cases he : g.epsilon ∈ fs
  · rw [if_pos he] at h ⊢
    rw [Option.bind_eq_some] at h
    obtain ⟨fl, hfl, h⟩ := h
    rw [hfl] at h
    rw [hfl, Option.some_bind]
    exact llRow_true_of_false _ row h
  · rw [if_neg he] at h ⊢
    exact llRow_true_of_false _ row h

theorem llNts_true_of_false {g : Grammar} {fuel : Nat} :
    ∀ nts tbl, llNts g fuel false nts = some (Except.ok tbl) →
      ((∀ p ∈ tbl, ∀ q ∈ (p : Symbol × Row).2, (q : Symbol × List Rule).2.length ≤ 1) →
        llNts g fuel true nts = some (Except.ok tbl)) ∧
      ((∃ p ∈ tbl, ∃ q ∈ (p : Symbol × Row).2, 1 < (q : Symbol × List Rule).2.length) →
        ∃ c, llNts g fuel true nts = some (Except.error c) ∧
          ∃ row, (c.nt, row) ∈ tbl ∧ (c.tt, c.rules) ∈ row ∧ 1 < c.rules.length) := by
  intro nts
  induction nts with
  | nil =>
    intro tbl h
    obtain rfl := Except.ok.inj (Option.some.inj h)
    refine ⟨fun _ => rfl, ?_⟩
    rintro ⟨p, hp, -⟩
    exact absurd hp (List.not_mem_nil p)
  | cons nt rest ih =>
    intro tbl h
    simp only [llNts] at h ⊢
    rw [Option.bind_eq_some] at h
    obtain ⟨res1, hres1, h⟩ := h
    cases res1 with
    | error c =>
      obtain ⟨row, hrow⟩ := llNt_false_ok _ hres1
      exact absurd hrow (by simp)
    | ok row =>
      simp only [stepNts] at h
      rw [Option.bind_eq_some] at h
      obtain ⟨res2, hres2, h⟩ := h
      cases res2 with
      | error c =>
        obtain ⟨tbl0, htbl0⟩ := llNts_false_ok _ _ hres2
        exact absurd htbl0 (by simp)
      | ok tbl0 =>
        simp only [consRow] at h
        obtain rfl := Except.ok.inj (Option.some.inj h)
        have hNt := llNt_true_of_false hres1
        have IH := ih tbl0 hres2
        constructor
        · intro hall
          have hrow_clean : ∀ q ∈ row, (q : Symbol × List Rule).2.length ≤ 1 := by
            by_cases hre : row = []
            · subst hre
              intro q hq
              exact absurd hq (List.not_mem_nil q)
            · intro q hq
              exact hall (nt, row) (by rw [if_neg hre]; exact List.mem_cons_self _ _) q hq
          have htbl0_clean : ∀ p ∈ tbl0, ∀ q ∈ (p : Symbol × Row).2,
              (q : Symbol × List Rule).2.length ≤ 1 := by
            intro p hp
            refine hall p ?_
            by_cases hre : row = []
            · rw [if_pos hre]; exact hp
            · rw [if_neg hre]; exact List.mem_cons_of_mem _ hp
          rw [hNt.1 hrow_clean, Option.some_bind]
          simp only [stepNts]
          rw [IH.1 htbl0_clean, Option.some_bind]
          rfl
        · rintro ⟨p, hp, q, hq, hql⟩
          by_cases hrowc : ∃ q ∈ row, 1 < (q : Symbol × List Rule).2.length
          · obtain ⟨c, hc, hcnt, hcm, hcl⟩ := hNt.2 hrowc
            refine ⟨c, ?_, row, ?_, hcm, hcl⟩
            · rw [hc, Option.some_bind]
              rfl
            · have hre : row ≠ [] := by
                rintro rfl
                obtain ⟨q', hq', -⟩ := hrowc
                exact absurd hq' (List.not_mem_nil q')
              rw [if_neg hre, hcnt]
              exact List.mem_cons_self _ _
          · have hclean : ∀ q ∈ row, (q : Symbol × List Rule).2.length ≤ 1 := by
              intro q' hq'
              by_contra hcon
              exact hrowc ⟨q', hq', by omega⟩
            have hp0 : p ∈ tbl0 := by
              by_cases hre : row = []
              · rw [if_pos hre] at hp; exact hp
              · rw [if_neg hre] at hp
                rcases List.mem_cons.mp hp with hp1 | hp2
                · exfalso
                  apply hrowc
                  refine ⟨q, ?_, hql⟩
                  rw [hp1] at hq
                  exact hq
                · exact hp2
            obtain ⟨c, hc, row', hm', hqm', hcl⟩ := IH.2 ⟨p, hp0, q, hq, hql⟩
            refine ⟨c, ?_, row', ?_, hqm', hcl⟩
            · rw [hNt.1 hclean, Option.some_bind]
              simp only [stepNts]
              rw [hc, Option.some_bind]
              rfl
            · by_cases hre : row = []
              · rw [if_pos hre]; exact hm'
              · rw [if_neg hre]; exact List.mem_cons_of_mem _ hm'

theorem applicableRules_sublist {eps : Symbol} {fF : Symbol → Option (Finset Symbol)}
    {fOpt : Option (Finset Symbol)} {nt tt : Symbol} :
    ∀ l cell, applicableRules eps fF fOpt nt tt l = some cell →
      List.Sublist cell (dupRules l) := by
  intro l
  induction l with
  | nil =>
    intro cell h
    obtain rfl := Option.some.inj h
    exact List.Sublist.refl _
  | cons r rest ih =>
    intro cell h
    simp only [applicableRules] at h
    simp only [dupRules]
    have hone : ∀ b : Bool, List.Sublist (if b = true then [r] else []) [r] := by
      intro b
      cases b
      · exact List.nil_sublist _
      · exact List.Sublist.refl _
    by_cases hl : r.lhs = nt
    · rw [if_pos hl] at h
      rw [Option.bind_eq_some] at h
      obtain ⟨p, hp, h⟩ := h
      by_cases ha : p.2 = true
      · rw [if_pos ha] at h
        rw [Option.bind_eq_some] at h
        obtain ⟨fl, hfl, h⟩ := h
        rw [Option.bind_eq_some] at h
        obtain ⟨acc, hacc, h⟩ := h
        obtain rfl := Option.some.inj h
        have htwo : List.Sublist (if tt ∈ fl then [r] else []) [r] := by
          by_cases hm : tt ∈ fl
          · rw [if_pos hm]
          · rw [if_neg hm]; exact List.nil_sublist _
        exact List.Sublist.append (List.Sublist.append (hone p.1) htwo) (ih acc hacc)
      · rw [if_neg ha] at h
        rw [Option.bind_eq_some] at h
        obtain ⟨acc, hacc, h⟩ := h
        obtain rfl := Option.some.inj h
        have htwo : List.Sublist (if p.1 = true then [r] else []) [r, r] :=
          (hone p.1).trans (by simp)
        exact List.Sublist.append htwo (ih acc hacc)
    · rw [if_neg hl] at h
      exact ((ih cell h).cons r).cons r

theorem llRow_cells {eps : Symbol} {fF : Symbol → Option (Finset Symbol)}
    {fOpt : Option (Finset Symbol)} {rules : List Rule} {check : Bool} {nt : Symbol} :
    ∀ terms row, llRow eps fF fOpt rules check nt terms = some (Except.ok row) →
      ∀ q ∈ row, applicableRules eps fF fOpt nt (q : Symbol × List Rule).1 rules = some q.2 := by
  intro terms
  induction terms with
  | nil =>
    intro row h q hq
    obtain rfl := Except.ok.inj (Option.some.inj h)
    exact absurd hq (List.not_mem_nil q)
  | cons tt rest ih =>
    intro row h q hq
    simp only [llRow] at h
    rw [Option.bind_eq_some] at h
    obtain ⟨ars, hars, h⟩ := h
    by_cases hcon : check = true ∧ 1 < ars.length
    · rw [if_pos hcon] at h
      exact absurd (Option.some.inj h) (by simp)
    · rw [if_neg hcon] at h
      rw [Option.bind_eq_some] at h
      obtain ⟨res0, hres0, h⟩ := h
      cases res0 with
      | error c =>
        simp only [consCell] at h
        exact absurd (Option.some.inj h) (by simp)
      | ok row0 =>
        simp only [consCell] at h
        obtain rfl := Except.ok.inj (Option.some.inj h)
        rcases List.mem_cons.mp hq with hq1 | hq2
        · subst hq1
          exact hars
        · exact ih row0 hres0 q hq2

theorem llNt_cells {g : Grammar} {fuel : Nat} {check : Bool} {nt : Symbol} {row : Row}
    (h : llNt g fuel check nt = some (Except.ok row)) :
    ∀ q ∈ row, applicableRules g.epsilon (fun s => Grammar.first g fuel s)
      (Grammar.follow g fuel nt) nt (q : Symbol × List Rule).1 g.rules = some q.2 := by
  simp only [llNt] at h
  rw [Option.bind_eq_some] at h
  obtain ⟨fs, hfs, h⟩ := h
  by_cases he : g.epsilon ∈ fs
  · rw [if_pos he] at h
    rw [Option.bind_eq_some] at h
    obtain ⟨fl, hfl, h⟩ := h
    exact llRow_cells _ row h
  · rw [if_neg he] at h
    exact llRow_cells _ row h

theorem llNts_cells {g : Grammar} {fuel : Nat} {check : Bool} :
    ∀ nts tbl, llNts g fuel check nts = some (Except.ok tbl) →
      ∀ p ∈ tbl, ∀ q ∈ (p : Symbol × Row).2,
        applicableRules g.epsilon (fun s => Grammar.first g fuel s)
          (Grammar.follow g fuel (p : Symbol × Row).1) p.1
          (q : Symbol × List Rule).1 g.rules = some q.2 := by
  intro nts
  induction nts with
  | nil =>
    intro tbl h p hp
    obtain rfl := Except.ok.inj (Option.some.inj h)
    exact absurd hp (List.not_mem_nil p)
  | cons nt rest ih =>
    intro tbl h p hp
    simp only [llNts] at h
    rw [Option.bind_eq_some] at h
    obtain ⟨res1, hres1, h⟩ := h
    cases res1 with
    | error c =>
      simp only [stepNts] at h
      exact absurd (Option.some.inj h) (by simp)
    | ok row =>
      simp only [stepNts] at h
      rw [Option.bind_eq_some] at h
      obtain ⟨res2, hres2, h⟩ := h
      cases res2 with
      | error c =>
        simp only [consRow] at h
        exact absurd (Option.some.inj h) (by simp)
      | ok tbl0 =>
        simp only [consRow] at h
        obtain rfl := Except.ok.inj (Option.some.inj h)
        by_cases hre : row = []
        · rw [if_pos hre] at hp
          exact ih tbl0 hres2 p hp
        · rw [if_neg hre] at hp
          rcases List.mem_cons.mp hp with hp1 | hp2
          · subst hp1
            exact llNt_cells hres1
          · exact ih tbl0 hres2 p hp2


theorem llScan_congr {fF fF' : Symbol → Option (Finset Symbol)} (eps tt : Symbol)
    (E : ∀ s t, fF s = some t → fF' s = some t) :
    ∀ l p, llScan eps fF tt l = some p → llScan eps fF' tt l = some p := by
  intro l
  induction l with
  | nil => intro p h; exact h
  | cons s rest ih =>
    intro p h
    simp only [llScan] at h ⊢
    rw [Option.bind_eq_some] at h
    obtain ⟨sf, hsf, h⟩ := h
    rw [E s sf hsf, Option.some_bind]
    by_cases h1 : tt ∈ sf
    · rw [if_pos h1] at h ⊢; exact h
    · rw [if_neg h1] at h ⊢
      by_cases h2 : eps ∈ sf
      · rw [if_pos h2] at h ⊢; exact ih p h
      · rw [if_neg h2] at h ⊢; exact h

theorem applicableRules_congr {fF fF' : Symbol → Option (Finset Symbol)}
    {fOpt fOpt' : Option (Finset Symbol)} (eps nt tt : Symbol)
    (E : ∀ s t, fF s = some t → fF' s = some t)
    (F : ∀ fl, fOpt = some fl → fOpt' = some fl) :
    ∀ l cell, applicableRules eps fF fOpt nt tt l = some cell →
      applicableRules eps fF' fOpt' nt tt l = some cell := by
  intro l
  induction l with
  | nil => intro cell h; exact h
  | cons r rest ih =>
    intro cell h
    simp only [applicableRules] at h ⊢
    by_cases hl : r.lhs = nt
    · rw [if_pos hl] at h ⊢
      rw [Option.bind_eq_some] at h
      obtain ⟨p, hp, h⟩ := h
      rw [llScan_congr eps tt E _ p hp, Option.some_bind]
      by_cases ha : p.2 = true
      · rw [if_pos ha] at h ⊢
        rw [Option.bind_eq_some] at h
        obtain ⟨fl, hfl, h⟩ := h
        rw [Option.bind_eq_some] at h
        obtain ⟨acc, hacc, h⟩ := h
        refine Option.bind_eq_some.mpr ⟨fl, F fl hfl, ?_⟩
        exact Option.bind_eq_some.mpr ⟨acc, ih acc hacc, h⟩
      · rw [if_neg ha] at h ⊢
        rw [Option.bind_eq_some] at h
        obtain ⟨acc, hacc, h⟩ := h
        rw [ih acc hacc, Option.some_bind]
        exact h
    · rw [if_neg hl] at h ⊢; exact ih cell h

theorem llRow_congr {fF fF' : Symbol → Option (Finset Symbol)}
    {fOpt fOpt' : Option (Finset Symbol)} {rules : List Rule} {check : Bool}
    (eps nt : Symbol)
    (E : ∀ s t, fF s = some t → fF' s = some t)
    (F : ∀ fl, fOpt = some fl → fOpt' = some fl) :
    ∀ terms res, llRow eps fF fOpt rules check nt terms = some res →
      llRow eps fF' fOpt' rules check nt terms = some res := by
  intro terms
  induction terms with
  | nil => intro res h; exact h
  | cons tt rest ih =>
    intro res h
    simp only [llRow] at h ⊢
    rw [Option.bind_eq_some] at h
    obtain ⟨ars, hars, h⟩ := h
    rw [applicableRules_congr eps nt tt E F _ ars hars, Option.some_bind]
    by_cases hcon : check = true ∧ 1 < ars.length
    · rw [if_pos hcon] at h ⊢; exact h
    · rw [if_neg hcon] at h ⊢
      rw [Option.bind_eq_some] at h
      obtain ⟨res0, hres0, h⟩ := h
      rw [ih res0 hres0, Option.some_bind]
      exact h

theorem llNt_fuel_succ (g : Grammar) (fuel : Nat) (check : Bool) (nt : Symbol) :
    ∀ res, llNt g fuel check nt = some res → llNt g (fuel + 1) check nt = some res := by
  intro res h
  simp only [llNt] at h ⊢
  rw [Option.bind_eq_some] at h
  obtain ⟨fs, hfs, h⟩ := h
  rw [first_fuel_succ g fuel nt fs hfs, Option.some_bind]
  have E : ∀ s t, Grammar.first g fuel s = some t → Grammar.first g (fuel + 1) s = some t :=
    fun s t hst => first_fuel_succ g fuel s t hst
  have F : ∀ fl, Grammar.follow g fuel nt = some fl →
      Grammar.follow g (fuel + 1) nt = some fl :=
    fun fl hfl => follow_fuel_succ g fuel nt fl hfl
  by_cases he : g.epsilon ∈ fs
  · rw [if_pos he] at h ⊢
    rw [Option.bind_eq_some] at h
    obtain ⟨fl, hfl, h⟩ := h
    rw [hfl] at h
    rw [F fl hfl, Option.some_bind]
    exact llRow_congr g.epsilon nt E (fun fl2 h2 => h2) _ res h
  · rw [if_neg he] at h ⊢
    exact llRow_congr g.epsilon nt E F _ res h

theorem llNts_fuel_succ (g : Grammar) (fuel : Nat) (check : Bool) :
    ∀ nts res, llNts g fuel check nts = some res → llNts g (fuel + 1) check nts = some res := by
  intro nts
  induction nts with
  | nil => intro res h; exact h
  | cons nt rest ih =>
    intro res h
    simp only [llNts] at h ⊢
    rw [Option.bind_eq_some] at h
    obtain ⟨res1, hres1, h⟩ := h
    rw [llNt_fuel_succ g fuel check nt res1 hres1, Option.some_bind]
    cases res1 with
    | error c => exact h
    | ok row =>
      simp only [stepNts] at h ⊢
      rw [Option.bind_eq_some] at h
      obtain ⟨res2, hres2, h⟩ := h
      rw [ih res2 hres2, Option.some_bind]
      exact h

theorem ll_one_fuel_mono (g : Grammar) (check : Bool) {f1 f2 : Nat} (h12 : f1 ≤ f2) :
    ∀ res, Grammar.ll_one g f1 check = some res → Grammar.ll_one g f2 check = some res := by
  induction h12 with
  | refl => exact fun res h => h
  | step _ ih => exact fun res h => llNts_fuel_succ g _ check _ res (ih res h)

theorem llScan_of_seqFirst {fF : Symbol → Option (Finset Symbol)} (eps tt : Symbol) :
    ∀ l FS, seqFirst eps fF l = some FS → ∃ p, llScan eps fF tt l = some p := by
  intro l
  induction l with
  | nil => intro FS _; exact ⟨(false, true), rfl⟩
  | cons s rest ih =>
    intro FS h
    simp only [seqFirst] at h
    rw [Option.bind_eq_some] at h
    obtain ⟨sf, hsf, h⟩ := h
    simp only [llScan]
    rw [hsf, Option.some_bind]
    by_cases h1 : tt ∈ sf
    · rw [if_pos h1]; exact ⟨(true, true), rfl⟩
    · rw [if_neg h1]
      by_cases h2 : eps ∈ sf
      · rw [if_pos h2] at h
        rw [if_pos h2]
        rw [Option.bind_eq_some] at h
        obtain ⟨FS0, hFS0, -⟩ := h
        exact ih FS0 hFS0
      · rw [if_neg h2]; exact ⟨(false, false), rfl⟩

theorem llScan_iff_seqFirst {fF : Symbol → Option (Finset Symbol)} (eps tt : Symbol)
    (hne : tt ≠ eps) :
    ∀ l FS p, seqFirst eps fF l = some FS → llScan eps fF tt l = some p →
      (p.1 = true ↔ tt ∈ FS) ∧ (p.1 = false → (p.2 = true ↔ eps ∈ FS)) := by
  intro l
  induction l with
  | nil =>
    intro FS p h hp
    obtain rfl := Option.some.inj h
    obtain rfl := Option.some.inj hp
    constructor
    · simp [hne]
    · intro _
      simp
  | cons s rest ih =>
    intro FS p h hp
    simp only [seqFirst] at h
    simp only [llScan] at hp
    rw [Option.bind_eq_some] at h hp
    obtain ⟨sf, hsf, h⟩ := h
    obtain ⟨sf2, hsf2, hp⟩ := hp
    rw [hsf] at hsf2
    obtain rfl := Option.some.inj hsf2
    by_cases h1 : tt ∈ sf
    · rw [if_pos h1] at hp
      obtain rfl := Option.some.inj hp
      refine ⟨?_, ?_⟩
      · simp only [true_iff]
        by_cases h2 : eps ∈ sf
        · rw [if_pos h2] at h
          rw [Option.bind_eq_some] at h
          obtain ⟨FS0, hFS0, h⟩ := h
          obtain rfl := Option.some.inj h
          exact Finset.mem_union_left _ (Finset.mem_erase_of_ne_of_mem hne h1)
        · rw [if_neg h2] at h
          obtain rfl := Option.some.inj h
          exact h1
      · intro hfalse
        simp at hfalse
    · rw [if_neg h1] at hp
      by_cases h2 : eps ∈ sf
      · rw [if_pos h2] at h hp
        rw [Option.bind_eq_some] at h
        obtain ⟨FS0, hFS0, h⟩ := h
        obtain rfl := Option.some.inj h
        have IH := ih FS0 p hFS0 hp
        constructor
        · rw [IH.1]
          constructor
          · intro hm
            exact Finset.mem_union_right _ hm
          · intro hm
            rcases Finset.mem_union.mp hm with hm1 | hm2
            · exact absurd (Finset.mem_of_mem_erase hm1) h1
            · exact hm2
        · intro hf
          rw [IH.2 hf]
          constructor
          · intro hm
            exact Finset.mem_union_right _ hm
          · intro hm
            rcases Finset.mem_union.mp hm with hm1 | hm2
            · exact absurd rfl (Finset.ne_of_mem_erase hm1)
            · exact hm2
      · rw [if_neg h2] at h hp
        obtain rfl := Option.some.inj h
        obtain rfl := Option.some.inj hp
        exact ⟨by simp [h1], fun _ => by simp [h2]⟩

theorem applicableRules_mem {fF : Symbol → Option (Finset Symbol)}
    {fOpt : Option (Finset Symbol)} (eps nt tt : Symbol) :
    ∀ l cell, applicableRules eps fF fOpt nt tt l = some cell →
      ∀ r, r ∈ cell ↔ r ∈ l ∧ r.lhs = nt ∧
        ∃ p, llScan eps fF tt r.rhs = some p ∧
          (p.1 = true ∨ (p.2 = true ∧ ∃ fl, fOpt = some fl ∧ tt ∈ fl)) := by
  intro l
  induction l with
  | nil =>
    intro cell h r
    obtain rfl := Option.some.inj h
    simp
  | cons r0 rest ih =>
    intro cell h r
    simp only [applicableRules] at h
    by_cases hl : r0.lhs = nt
    · rw [if_pos hl] at h
      rw [Option.bind_eq_some] at h
      obtain ⟨p0, hp0, h⟩ := h
      by_cases ha : p0.2 = true
      · rw [if_pos ha] at h
        rw [Option.bind_eq_some] at h
        obtain ⟨fl, hfl, h⟩ := h
        rw [Option.bind_eq_some] at h
        obtain ⟨acc, hacc, h⟩ := h
        obtain rfl := Option.some.inj h
        have IH := ih acc hacc r
        constructor
        · intro hr
          rcases List.mem_append.mp hr with hr1 | hr2
          · rcases List.mem_append.mp hr1 with hr3 | hr4
            · have : r = r0 := by
                by_cases hf : p0.1 = true
                · rw [if_pos hf] at hr3; exact List.mem_singleton.mp hr3
                · rw [if_neg hf] at hr3; exact absurd hr3 (List.not_mem_nil r)
              subst this
              refine ⟨List.mem_cons_self _ _, hl, p0, hp0, ?_⟩
              by_cases hf : p0.1 = true
              · exact Or.inl hf
              · rw [if_neg hf] at hr3; exact absurd hr3 (List.not_mem_nil r)
            · have : r = r0 := by
                by_cases hf : tt ∈ fl
                · rw [if_pos hf] at hr4; exact List.mem_singleton.mp hr4
                · rw [if_neg hf] at hr4; exact absurd hr4 (List.not_mem_nil r)
              subst this
              refine ⟨List.mem_cons_self _ _, hl, p0, hp0, ?_⟩
              by_cases hf : tt ∈ fl
              · exact Or.inr ⟨ha, fl, hfl, hf⟩
              · rw [if_neg hf] at hr4; exact absurd hr4 (List.not_mem_nil r)
          · obtain ⟨hm, hlhs, hex⟩ := IH.mp hr2
            exact ⟨List.mem_cons_of_mem _ hm, hlhs, hex⟩
        · rintro ⟨hm, hlhs, p, hp, hcond⟩
          by_cases hr0 : r = r0
          · subst hr0
            rw [hp0] at hp
            obtain rfl := Option.some.inj hp
            refine List.mem_append.mpr (Or.inl ?_)
            rcases hcond with hf | ⟨-, fl2, hfl2, hin⟩
            · exact List.mem_append.mpr (Or.inl (by rw [if_pos hf]; exact List.mem_singleton_self _))
            · rw [hfl] at hfl2
              obtain rfl := Option.some.inj hfl2
              exact List.mem_append.mpr (Or.inr (by rw [if_pos hin]; exact List.mem_singleton_self _))
          · have hm' : r ∈ rest := by
              rcases List.mem_cons.mp hm with h1 | h2
              · exact absurd h1 hr0
              · exact h2
            exact List.mem_append.mpr (Or.inr (IH.mpr ⟨hm', hlhs, p, hp, hcond⟩))
      · rw [if_neg ha] at h
        rw [Option.bind_eq_some] at h
        obtain ⟨acc, hacc, h⟩ := h
        obtain rfl := Option.some.inj h
        have IH := ih acc hacc r
        constructor
        · intro hr
          rcases List.mem_append.mp hr with hr1 | hr2
          · have : r = r0 := by
              by_cases hf : p0.1 = true
              · rw [if_pos hf] at hr1; exact List.mem_singleton.mp hr1
              · rw [if_neg hf] at hr1; exact absurd hr1 (List.not_mem_nil r)
            subst this
            refine ⟨List.mem_cons_self _ _, hl, p0, hp0, ?_⟩
            by_cases hf : p0.1 = true
            · exact Or.inl hf
            · rw [if_neg hf] at hr1; exact absurd hr1 (List.not_mem_nil r)
          · obtain ⟨hm, hlhs, hex⟩ := IH.mp hr2
            exact ⟨List.mem_cons_of_mem _ hm, hlhs, hex⟩
        · rintro ⟨hm, hlhs, p, hp, hcond⟩
          by_cases hr0 : r = r0
          · subst hr0
            rw [hp0] at hp
            obtain rfl := Option.some.inj hp
            rcases hcond with hf | ⟨ha2, -⟩
            · exact List.mem_append.mpr (Or.inl (by rw [if_pos hf]; exact List.mem_singleton_self _))
            · exact absurd ha2 ha
          · have hm' : r ∈ rest := by
              rcases List.mem_cons.mp hm with h1 | h2
              · exact absurd h1 hr0
              · exact h2
            exact List.mem_append.mpr (Or.inr (IH.mpr ⟨hm', hlhs, p, hp, hcond⟩))
    · rw [if_neg hl] at h
      have IH := ih cell h
      rw [IH r]
      constructor
      · rintro ⟨hm, hlhs, hex⟩
        exact ⟨List.mem_cons_of_mem _ hm, hlhs, hex⟩
      · rintro ⟨hm, hlhs, hex⟩
        have hm' : r ∈ rest := by
          rcases List.mem_cons.mp hm with h1 | h2
          · exfalso; rw [h1] at hlhs; exact hl hlhs
          · exact h2
        exact ⟨hm', hlhs, hex⟩

/-- C1: the spec requires first() to terminate on every grammar,
including indirectly left-recursive ones, but the source's unguarded
recursion (its only guard is the immediate self-reference test of line
101) recurses first(A) → first(B) → first(A) → … on the grammar with
rules A→B and B→A: at every recursion depth the computation is still
running, i.e. it diverges. -/
theorem first_diverges_on_gLoop : ∀ fuel,
    Grammar.first gLoop fuel ⟨2, true⟩ = none ∧
      Grammar.first gLoop fuel ⟨3, true⟩ = none := by
  intro fuel
  induction fuel with
  | zero => exact ⟨rfl, rfl⟩
  | succ n ih =>
    constructor
    · show firstRules gLoop.epsilon (fun s => Grammar.first gLoop n s) ⟨2, true⟩
        [⟨⟨2, true⟩, [⟨3, true⟩]⟩, ⟨⟨3, true⟩, [⟨2, true⟩]⟩] = none
      simp [firstRules, firstScan, ih.1, ih.2]
    · show firstRules gLoop.epsilon (fun s => Grammar.first gLoop n s) ⟨3, true⟩
        [⟨⟨2, true⟩, [⟨3, true⟩]⟩, ⟨⟨3, true⟩, [⟨2, true⟩]⟩] = none
      simp [firstRules, firstScan, ih.1, ih.2]

/-- C2: the spec requires follow() to terminate on every grammar with a
rule, but the source's unguarded mutual recursion (line 132 calls
self.follow(lhs) with no guard at all) recurses follow(A) → follow(S) →
follow(A) → … on the grammar with rules S→A and A→S, where each
nonterminal ends the other's rule: at every recursion depth the
computation is still running, i.e. it diverges. -/
theorem follow_diverges_on_gLoop : ∀ fuel,
    Grammar.follow gLoop fuel ⟨2, true⟩ = none ∧
      Grammar.follow gLoop fuel ⟨3, true⟩ = none := by
  intro fuel
  induction fuel with
  | zero => exact ⟨rfl, rfl⟩
  | succ n ih =>
    constructor
    · show (followRules gLoop.epsilon (fun s => Grammar.first gLoop n s)
          (fun a => Grammar.follow gLoop n a) ⟨2, true⟩
          [⟨⟨2, true⟩, [⟨3, true⟩]⟩, ⟨⟨3, true⟩, [⟨2, true⟩]⟩]).bind (fun s =>
        some (if gLoop.root = some ⟨2, true⟩ then s ∪ {gLoop.eof} else s)) = none
      simp [followRules, followOcc, followScan, ih.1, ih.2]
    · show (followRules gLoop.epsilon (fun s => Grammar.first gLoop n s)
          (fun a => Grammar.follow gLoop n a) ⟨3, true⟩
          [⟨⟨2, true⟩, [⟨3, true⟩]⟩, ⟨⟨3, true⟩, [⟨2, true⟩]⟩]).bind (fun s =>
        some (if gLoop.root = some ⟨3, true⟩ then s ∪ {gLoop.eof} else s)) = none
      simp [followRules, followOcc, followScan, ih.1, ih.2]

/-- C6: on the canonical sample grammar the computed FIRST and FOLLOW
sets are exactly the ones the spec lists: FIRST(B)={w}, FIRST(D)={y,x,ε},
FIRST(E)={y,ε}, FIRST(F)={x,ε}, FIRST(S)={u}, FOLLOW(S)={$},
FOLLOW(B)={v,y,x,z}, FOLLOW(D)={z}, FOLLOW(E)={x,z}, FOLLOW(F)={z}. -/
theorem canonical_first_follow_sets :
    Grammar.first gCanon 20 symB = some {symW} ∧
    Grammar.first gCanon 20 symD = some {epsSym, symY, symX} ∧
    Grammar.first gCanon 20 symE = some {symY, epsSym} ∧
    Grammar.first gCanon 20 symF = some {symX, epsSym} ∧
    Grammar.first gCanon 20 symS = some {symU} ∧
    Grammar.follow gCanon 20 symS = some {eofSym} ∧
    Grammar.follow gCanon 20 symB = some {symY, symX, symZ, symV} ∧
    Grammar.follow gCanon 20 symD = some {symZ} ∧
    Grammar.follow gCanon 20 symE = some {symX, symZ} ∧
    Grammar.follow gCanon 20 symF = some {symZ} :=
  ⟨rfl, rfl, rfl, rfl, rfl, rfl, rfl, rfl, rfl, rfl⟩

/-- C3 counterexample: on the canonical sample grammar, building the
table with conflict detection enabled does NOT succeed: the grammar is
left recursive (B→Bv), FIRST(B) = {w} makes both B-rules applicable at
lookahead w, and the build raises the conflict for cell (B, w) listing
the rules B→Bv and B→w. -/
theorem canonical_ll_one_check_raises :
    Grammar.ll_one gCanon 20 true =
      some (Except.error ⟨symB, symW, [⟨symB, [symB, symV]⟩, ⟨symB, [symW]⟩]⟩) := rfl

/-- C3 amended: on the canonical sample grammar, ll_one with conflict
detection enabled raises the conflict error for nonterminal B at
lookahead w with the rules B→Bv and B→w (the grammar is not LL(1)),
while with detection disabled the build succeeds. -/
theorem canonical_ll_one_behavior :
    Grammar.ll_one gCanon 20 true =
      some (Except.error ⟨symB, symW, [⟨symB, [symB, symV]⟩, ⟨symB, [symW]⟩]⟩) ∧
    isOkTable (Grammar.ll_one gCanon 20 false) = true :=
  ⟨rfl, rfl⟩

/-- C5: on the grammar S→Ab, A→b, the lookahead b reaches the rule A→b
both through its FIRST scan and through FOLLOW(A) = {b}, and the two
append sites of ll_one (lines 155 and 161) record that single rule twice
in cell (A, b) — the cell list is not duplicate-free. -/
theorem gDup_cell_records_rule_twice :
    Grammar.ll_one gDup 20 false =
      some (Except.ok
        [(⟨2, true⟩, [(⟨4, false⟩, [⟨⟨2, true⟩, [⟨3, true⟩, ⟨4, false⟩]⟩])]),
         (⟨3, true⟩, [(⟨4, false⟩,
           [⟨⟨3, true⟩, [⟨4, false⟩]⟩, ⟨⟨3, true⟩, [⟨4, false⟩]⟩])])]) ∧
    ¬ List.Nodup [(⟨⟨3, true⟩, [⟨4, false⟩]⟩ : Rule), ⟨⟨3, true⟩, [⟨4, false⟩]⟩] :=
  ⟨rfl, by decide⟩

/-- C8: whenever follow() returns at all on the grammar's root (the lhs
of the first rule added, stored in `_root`), the returned set contains
the end-of-input marker: lines 133-134 union it in unconditionally. -/
theorem follow_root_has_eof (g : Grammar) (rt : Symbol) (fuel : Nat) (S : Finset Symbol)
    (hroot : g.root = some rt) (h : Grammar.follow g fuel rt = some S) : g.eof ∈ S := by
  cases fuel with
  | zero => simp [Grammar.follow] at h
  | succ n =>
    simp only [Grammar.follow] at h
    rw [Option.bind_eq_some] at h
    obtain ⟨u, _, h⟩ := h
    rw [hroot, if_pos rfl] at h
    obtain rfl : u ∪ {g.eof} = S := Option.some.inj h
    exact Finset.mem_union_right _ (Finset.mem_singleton_self _)

/-- C8 witness: on the canonical grammar the root is S, FOLLOW(S)
computes to {$}, and the end-of-input marker is a member. -/
theorem follow_root_has_eof_w :
    gCanon.root = some symS ∧ Grammar.follow gCanon 10 symS = some {eofSym} ∧
      gCanon.eof ∈ ({eofSym} : Finset Symbol) :=
  ⟨rfl, rfl, follow_root_has_eof gCanon symS 10 {eofSym} rfl rfl⟩

/-- C9: the contract assertions fail loudly and coerce nothing: a rule
whose lhs is not a NonTerminal or whose rhs holds a non-Symbol is
rejected by Rule.__init__ (and hence by Grammar.r, after its empty-rhs
normalization), and follow() rejects a query on anything that is not a
NonTerminal. -/
theorem contract_checks_fail (g : Grammar) (fuel : Nat) (lhs : PyVal) (rhs : List PyVal)
    (v : PyVal)
    (h1 : isNonTerminalVal lhs = false ∨ ∃ x ∈ rhs, isSymbolVal x = false)
    (h2 : isNonTerminalVal v = false) :
    Rule.init lhs rhs = Except.error PyError.assertionFailed ∧
    Grammar.rChecked g lhs rhs = Except.error PyError.assertionFailed ∧
    Grammar.followChecked g fuel v = Except.error PyError.assertionFailed := by
  have init_err : ∀ rhs2 : List PyVal, (isNonTerminalVal lhs = false ∨
      ∃ x ∈ rhs2, isSymbolVal x = false) →
      Rule.init lhs rhs2 = Except.error PyError.assertionFailed := by
    intro rhs2 hr
    cases lhs with
    | obj t => rfl
    | sym s =>
      simp only [Rule.init]
      rcases hr with hl | ⟨x, hx, hxs⟩
      · rw [if_pos (by simpa [isNonTerminalVal] using hl)]
      · have hall : rhs2.all isSymbolVal = false := by
          rw [List.all_eq_false]
          exact ⟨x, hx, by simp [hxs]⟩
        by_cases hnt : s.nt = false
        · rw [if_pos hnt]
        · rw [if_neg hnt, hall]
          simp
  refine ⟨init_err rhs h1, ?_, ?_⟩
  · simp only [Grammar.rChecked]
    rcases h1 with hl | ⟨x, hx, hxs⟩
    · rw [init_err _ (Or.inl hl)]
    · have hne : rhs ≠ [] := by rintro rfl; exact absurd hx (List.not_mem_nil x)
      have hlen : ¬ rhs.length < 1 := by
        cases rhs with
        | nil => exact absurd rfl hne
        | cons a l => simp
      rw [if_neg hlen, init_err _ (Or.inr ⟨x, hx, hxs⟩)]
  · cases v with
    | obj t => rfl
    | sym s =>
      simp only [Grammar.followChecked]
      rw [if_neg (by simpa [isNonTerminalVal] using h2)]

/-- C9 witness: a non-Symbol lhs with a non-Symbol rhs element is
rejected by the rule constructor and by Grammar.r, and follow() on the
end-of-input Terminal is rejected. -/
theorem contract_checks_fail_w :
    (isNonTerminalVal (PyVal.obj 0) = false ∨
      ∃ x ∈ [PyVal.obj 1], isSymbolVal x = false) ∧
    isNonTerminalVal (PyVal.sym eofSym) = false ∧
    (Rule.init (PyVal.obj 0) [PyVal.obj 1] = Except.error PyError.assertionFailed ∧
     Grammar.rChecked Grammar.empty (PyVal.obj 0) [PyVal.obj 1] =
       Except.error PyError.assertionFailed ∧
     Grammar.followChecked Grammar.empty 5 (PyVal.sym eofSym) =
       Except.error PyError.assertionFailed) :=
  ⟨Or.inl rfl, rfl,
    contract_checks_fail Grammar.empty 5 (PyVal.obj 0) [PyVal.obj 1]
      (PyVal.sym eofSym) (Or.inl rfl) rfl⟩

/-- C4 amended: with detection off the build never raises; with
detection on (and the same fuel at which the detection-off build
returns a table) it raises exactly when some recorded cell holds more
than one entry — where a single rule may be recorded twice when it is
applicable both via FIRST and via FOLLOW — and the raised conflict
carries the offending nonterminal, the lookahead terminal and that
cell's recorded rule list.  Moreover every cell of the detection-off
table records exactly the applicable rules, membership-wise: a rule is
in cell (A, t) iff its lhs is A and either t ∈ FIRST(rhs) under the
nullable-prefix scan, or the rhs is fully nullable and t ∈ FOLLOW(A)
(stated for lookaheads other than the epsilon sentinel, which is never
a director terminal, and for rules whose scan terminates). -/
theorem ll_one_conflict_characterization (g : Grammar) (fuel : Nat) (tbl : Table)
    (h : Grammar.ll_one g fuel false = some (Except.ok tbl)) :
    (∀ (g' : Grammar) (fuel' : Nat) (c : Conflict),
      Grammar.ll_one g' fuel' false ≠ some (Except.error c)) ∧
    ((∃ c, Grammar.ll_one g fuel true = some (Except.error c)) ↔
      ∃ p ∈ tbl, ∃ q ∈ (p : Symbol × Row).2, 1 < (q : Symbol × List Rule).2.length) ∧
    (∀ c, Grammar.ll_one g fuel true = some (Except.error c) →
      1 < c.rules.length ∧ ∃ row, (c.nt, row) ∈ tbl ∧ (c.tt, c.rules) ∈ row) ∧
    (∀ p ∈ tbl, ∀ q ∈ (p : Symbol × Row).2, (q : Symbol × List Rule).1 ≠ g.epsilon →
      ∀ (r : Rule) (FS : Finset Symbol),
        seqFirst g.epsilon (fun s => Grammar.first g fuel s) r.rhs = some FS →
        (r ∈ q.2 ↔ r ∈ g.rules ∧ r.lhs = p.1 ∧
          (q.1 ∈ FS ∨ (g.epsilon ∈ FS ∧
            ∃ fl, Grammar.follow g fuel p.1 = some fl ∧ q.1 ∈ fl)))) := by
  have hcells := @llNts_cells g fuel false _ tbl h
  simp only [Grammar.ll_one] at h ⊢
  have H := llNts_true_of_false _ tbl h
  have conflict_exists : (∃ c, llNts g fuel true (g.syms.filter fun s => s.nt) =
      some (Except.error c)) →
      ∃ p ∈ tbl, ∃ q ∈ (p : Symbol × Row).2, 1 < (q : Symbol × List Rule).2.length := by
    rintro ⟨c, hc⟩
    by_contra hno
    push_neg at hno
    rw [H.1 (fun p hp q hq => by have := hno p hp q hq; omega)] at hc
    simp at hc
  refine ⟨?_, ⟨conflict_exists, ?_⟩, ?_, ?_⟩
  · intro g' fuel' c hc
    obtain ⟨tbl0, htbl0⟩ := llNts_false_ok _ _ hc
    simp at htbl0
  · intro hex
    obtain ⟨c, hc, -⟩ := H.2 hex
    exact ⟨c, hc⟩
  · intro c hc
    obtain ⟨c', hc', row, hm, hqm, hl⟩ := H.2 (conflict_exists ⟨c, hc⟩)
    rw [hc] at hc'
    obtain rfl := Except.error.inj (Option.some.inj hc')
    exact ⟨hl, row, hm, hqm⟩
  · intro p hp q hq hne r FS hFS
    have hcell := hcells p hp q hq
    rw [applicableRules_mem g.epsilon p.1 q.1 g.rules q.2 hcell r]
    obtain ⟨pr, hpr⟩ := llScan_of_seqFirst g.epsilon q.1 r.rhs FS hFS
    have hiff := llScan_iff_seqFirst g.epsilon q.1 hne r.rhs FS pr hFS hpr
    constructor
    · rintro ⟨hm, hlhs, p2, hp2, hcond⟩
      rw [hpr] at hp2
      obtain rfl := Option.some.inj hp2
      refine ⟨hm, hlhs, ?_⟩
      rcases hcond with hf | ⟨ha, fl, hfl, hin⟩
      · exact Or.inl (hiff.1.mp hf)
      · by_cases hf1 : pr.1 = true
        · exact Or.inl (hiff.1.mp hf1)
        · exact Or.inr ⟨(hiff.2 (Bool.eq_false_iff.mpr hf1)).mp ha, fl, hfl, hin⟩
    · rintro ⟨hm, hlhs, hcond⟩
      refine ⟨hm, hlhs, pr, hpr, ?_⟩
      rcases hcond with hf | ⟨heps, fl, hfl, hin⟩
      · exact Or.inl (hiff.1.mpr hf)
      · by_cases hf1 : pr.1 = true
        · exact Or.inl hf1
        · exact Or.inr ⟨(hiff.2 (Bool.eq_false_iff.mpr hf1)).mpr heps, fl, hfl, hin⟩

/-- C4 counterexample: on the grammar S→Ab, A→b, detection raises for
cell (A, b) even though exactly one rule satisfies the spec's
applicability conditions there (and the S-cell also has exactly one):
the raise condition counts recorded entries, not applicable rules. -/
theorem gDup_conflict_with_single_applicable_rule :
    Grammar.ll_one gDup 20 true =
      some (Except.error ⟨⟨3, true⟩, ⟨4, false⟩,
        [⟨⟨3, true⟩, [⟨4, false⟩]⟩, ⟨⟨3, true⟩, [⟨4, false⟩]⟩]⟩) ∧
    (gDup.rules.filter (specApplicable gDup 20 ⟨3, true⟩ ⟨4, false⟩)).length = 1 ∧
    (gDup.rules.filter (specApplicable gDup 20 ⟨2, true⟩ ⟨4, false⟩)).length = 1 :=
  ⟨rfl, rfl, rfl⟩

/-- C4 witness: on the conflict-pair grammar A→a, A→ab the detection-off
build returns the two-rule cell and the detection-on build raises. -/
theorem ll_one_conflict_characterization_w :
    Grammar.ll_one gAB 20 false = some (Except.ok
      [(⟨2, true⟩, [(⟨3, false⟩,
        [⟨⟨2, true⟩, [⟨3, false⟩]⟩, ⟨⟨2, true⟩, [⟨3, false⟩, ⟨4, false⟩]⟩])])]) ∧
    (∃ c, Grammar.ll_one gAB 20 true = some (Except.error c)) :=
  ⟨rfl, (ll_one_conflict_characterization gAB 20
    [(⟨2, true⟩, [(⟨3, false⟩,
      [⟨⟨2, true⟩, [⟨3, false⟩]⟩, ⟨⟨2, true⟩, [⟨3, false⟩, ⟨4, false⟩]⟩])])]
    rfl).2.1.mpr (by decide)⟩

/-- C10: every cell recorded by a completed detection-off build is a
sublist of the grammar's rule list with each rule doubled in place:
cells list their rules in non-decreasing rule-insertion order (the cell
is produced by scanning the rule list in insertion order, each rule
contributing at most its two append sites). -/
theorem ll_one_cells_in_rule_order (g : Grammar) (fuel : Nat) (tbl : Table)
    (h : Grammar.ll_one g fuel false = some (Except.ok tbl)) :
    ∀ p ∈ tbl, ∀ q ∈ (p : Symbol × Row).2,
      List.Sublist (q : Symbol × List Rule).2 (dupRules g.rules) := by
  intro p hp q hq
  exact applicableRules_sublist _ _ (llNts_cells _ tbl h p hp q hq)

theorem ll_one_cells_in_rule_order_w :
    Grammar.ll_one gAB 20 false = some (Except.ok
      [(⟨2, true⟩, [(⟨3, false⟩,
        [⟨⟨2, true⟩, [⟨3, false⟩]⟩, ⟨⟨2, true⟩, [⟨3, false⟩, ⟨4, false⟩]⟩])])]) ∧
    List.Sublist [(⟨⟨2, true⟩, [⟨3, false⟩]⟩ : Rule), ⟨⟨2, true⟩, [⟨3, false⟩, ⟨4, false⟩]⟩]
      (dupRules gAB.rules) :=
  ⟨rfl, ll_one_cells_in_rule_order gAB 20
    [(⟨2, true⟩, [(⟨3, false⟩,
      [⟨⟨2, true⟩, [⟨3, false⟩]⟩, ⟨⟨2, true⟩, [⟨3, false⟩, ⟨4, false⟩]⟩])])]
    rfl
    (⟨2, true⟩, [(⟨3, false⟩,
      [⟨⟨2, true⟩, [⟨3, false⟩]⟩, ⟨⟨2, true⟩, [⟨3, false⟩, ⟨4, false⟩]⟩])])
    (by decide)
    (⟨3, false⟩, [⟨⟨2, true⟩, [⟨3, false⟩]⟩, ⟨⟨2, true⟩, [⟨3, false⟩, ⟨4, false⟩]⟩])
    (by decide)⟩

end Parsers
